/-
Verification of the dnsdisco DNS service-discovery library (rafaeljusto/dnsdisco).

Shallow embedding of the server data model, the Discovery operations Refresh
and Choose (src/dnsdisco.go) and the default selection strategy
defaultBalancer.Balance (src/dnsdisco.go, lines 243-309), together with proofs
and refutations of the specification claims.

Modelling conventions:
  * Go uint16 fields (Port, Priority, Weight) are Nat; all values produced by
    the library are < 2^16 and no arithmetic in the modelled code can overflow
    a 64-bit Go int for any physically representable slice, so sums are kept
    unbounded.
  * Server.Used is a Go int that the library only initialises to 0 and
    increments, so it is modelled as Nat.
  * time.Time / time.Duration are modelled as Int nanoseconds; the Go zero
    time.Time value is 0.
  * The shared random source is modelled by a stream rs : Nat -> Nat of raw
    draws; the k-th call of randomSource.Intn(n) in a Balance run yields
    rs k % n, which ranges over exactly the outcomes Intn can produce.
  * error values are an arbitrary type E; (Option E, data) mirrors a Go
    (data, error) pair.
-/
import Mathlib

set_option autoImplicit false

/-- Embeds the SRV record fields used by the library (net.SRV: Target, Port,
Priority, Weight). -/
structure SRVnet where
  Target : String
  Port : Nat
  Priority : Nat
  Weight : Nat
deriving DecidableEq, Repr

/-- Embeds type Server of src/dnsdisco.go (net.SRV embedded, plus
LastHealthCheck, lastHealthCheckAt and Used). -/
structure Server where
  Target : String
  Port : Nat
  Priority : Nat
  Weight : Nat
  LastHealthCheck : Bool
  lastHealthCheckAt : Int
  Used : Nat
deriving DecidableEq, Repr

/-- The Go zero value of Server, used as the (unreachable) default of indexed
accesses that the Go code performs only in bounds. -/
def zeroServer : Server := ⟨"", 0, 0, 0, false, 0, 0⟩

/-- Embeds Server{SRV: *srv} as built by Discovery.Refresh: the SRV fields are
copied and every tracking field gets its Go zero value. -/
def mkServer (v : SRVnet) : Server :=
  ⟨v.Target, v.Port, v.Priority, v.Weight, false, 0, 0⟩

/-- Embeds the servers attribute of type Discovery (src/dnsdisco.go); the
configuration fields are passed explicitly to the operations. -/
structure Discovery where
  servers : List Server
deriving DecidableEq, Repr

/-- Embeds defaultHealthCheckerTTL = 5 * time.Second (nanoseconds). -/
def defaultHealthCheckerTTL : Int := 5000000000

/-- Embeds Discovery.Refresh (src/dnsdisco.go lines 111-125): the retriever
result is a Go (servers, err) pair; a non-nil error is returned unchanged with
no mutation, otherwise the server set is rebuilt from scratch. -/
def Refresh {E : Type} (ret : Option E × List SRVnet) (d : Discovery) :
    Option E × Discovery :=
  match ret with
  | (some e, _) => (some e, d)
  | (none, srvs) => (none, { d with servers := srvs.map mkServer })

/-- Embeds the staleness test of Discovery.Choose (line 133): a server is
probed unless time.Now().Sub(lastHealthCheckAt) < HealthCheckerTTL. -/
def staleB (now ttl : Int) (s : Server) : Bool :=
  !(decide (now - s.lastHealthCheckAt < ttl))

/-- Embeds line 138: LastHealthCheck = (err == nil && ok), for a probe result
(ok, errIsNil). -/
def probeHealthy (pr : Bool × Bool) : Bool := pr.2 && pr.1

/-- The update Choose applies to one stale server (lines 137-139). -/
def checkServer (now ttl : Int) (probe : String → Nat → Bool × Bool)
    (s : Server) : Server :=
  if staleB now ttl s then
    { s with LastHealthCheck := probeHealthy (probe s.Target s.Port),
             lastHealthCheckAt := now }
  else s

/-- Embeds the health-check loop of Discovery.Choose (lines 131-140); the
second component logs, in order, the (target, port) pairs the HealthChecker
was invoked on. -/
def healthCheckPhase (now ttl : Int) (probe : String → Nat → Bool × Bool) :
    List Server → List Server × List (String × Nat)
  | [] => ([], [])
  | s :: rest =>
    let r := healthCheckPhase now ttl probe rest
    if staleB now ttl s then
      (checkServer now ttl probe s :: r.1, (s.Target, s.Port) :: r.2)
    else (s :: r.1, r.2)

/-- Embeds d.servers[i].Used++ (line 147). -/
def incUsed : List Server → Nat → List Server
  | [], _ => []
  | s :: ss, 0 => { s with Used := s.Used + 1 } :: ss
  | s :: ss, n + 1 => s :: incUsed ss n

/-- Embeds Discovery.Choose (src/dnsdisco.go lines 131-151) for an arbitrary
balancer: run the health-check loop, hand the balancer the updated snapshot,
and on a valid index increment Used and return that server's target and port;
otherwise return ("", 0). -/
def Choose (now ttl : Int) (probe : String → Nat → Bool × Bool)
    (bal : List Server → Int) (d : Discovery) : (String × Nat) × Discovery :=
  let checked := (healthCheckPhase now ttl probe d.servers).1
  let i := bal checked
  if 0 ≤ i ∧ i < (checked.length : Int) then
    let s := checked.getD i.toNat zeroServer
    ((s.Target, s.Port), ⟨incUsed checked i.toNat⟩)
  else (("", 0), ⟨checked⟩)

/-- Embeds the serversByPriority grouping of defaultBalancer.Balance (lines
244-247): the Go map groups by Priority keeping encounter order per key. -/
def serversByPriority (p : Nat) (servers : List Server) : List Server :=
  servers.filter (fun s => s.Priority == p)

/-- Insertion into a sorted duplicate-free priority list. -/
def insertPriority (p : Nat) : List Nat → List Nat
  | [] => [p]
  | q :: qs =>
    if p < q then p :: q :: qs
    else if p = q then q :: qs
    else q :: insertPriority p qs

/-- Embeds lines 249-253: the distinct priorities present, in ascending order
(the Go code collects the map keys and runs sort.Ints). -/
def priorities (servers : List Server) : List Nat :=
  servers.foldl (fun acc s => insertPriority s.Priority acc) []

/-- Embeds the minimumUsed computation of lines 262-267, including the -1
sentinel of the Go code. -/
def minimumUsed (ss : List Server) : Int :=
  ss.foldl
    (fun m s => if (s.Used : Int) < m ∨ m = -1 then (s.Used : Int) else m)
    (-1)

/-- Embeds the removal pass of lines 274-278: servers with Used >
minimumUsed are spliced out, preserving the order of the remainder. -/
def keptServers (ss : List Server) : List Server :=
  ss.filter (fun s => decide ((s.Used : Int) ≤ minimumUsed ss))

/-- Embeds totalWeight (lines 269, 280): the sum of the weights of the kept
servers. -/
def totalWeight (kept : List Server) : Nat :=
  (kept.map Server.Weight).sum

/-- Running sums of a weight list starting from acc. -/
def runningSumsFrom (acc : Nat) : List Nat → List Nat
  | [] => []
  | w :: ws => (acc + w) :: runningSumsFrom (acc + w) ws

/-- Running sums of a weight list. -/
def runningSums (ws : List Nat) : List Nat := runningSumsFrom 0 ws

/-- The selectedServersWeight slice of lines 270-282: the backward loop visits
the kept servers from the last to the first, so the running sums it appends
are those of the reversed kept list. -/
def selectedWeights (kept : List Server) : List Nat :=
  runningSums (kept.reverse.map Server.Weight)

/-- Embeds the selection loop of lines 287-294: i runs from
len(selectedServersWeight)-1 down to 0 and the first i with
selectedServersWeight[i] >= randomNumber && selectedServers[i].LastHealthCheck
wins. -/
def selDesc (r : Nat) (weights : List Nat) (cands : List Server) :
    Nat → Option Server
  | 0 => none
  | i + 1 =>
    if r ≤ weights.getD i 0 ∧ (cands.getD i zeroServer).LastHealthCheck then
      some (cands.getD i zeroServer)
    else selDesc r weights cands i

/-- One priority-tier pass of defaultBalancer.Balance: filter to the
minimum-Used servers and run the descending selection loop. -/
def tierPick (r : Nat) (ss : List Server) : Option Server :=
  let kept := keptServers ss
  selDesc r (selectedWeights kept) kept kept.length

/-- Embeds the outer priority loop of lines 258-299: selectedTarget starts
empty, each tier draws randomSource.Intn(totalWeight+1) (the k-th draw of the
stream), and the loop stops at the first tier whose selection has a non-empty
target. -/
def balanceLoop (rs : Nat → Nat) (servers : List Server) :
    Nat → List Nat → String
  | _, [] => ""
  | k, p :: ps =>
    let ss := serversByPriority p servers
    let r := rs k % (totalWeight (keptServers ss) + 1)
    match tierPick r ss with
    | some s => if s.Target = "" then balanceLoop rs servers (k + 1) ps
                else s.Target
    | none => balanceLoop rs servers (k + 1) ps

/-- Embeds the final position lookup of lines 301-306: the first server whose
Target equals the selected target. -/
def findTargetIdx (t : String) : List Server → Option Nat
  | [] => none
  | s :: ss => if s.Target = t then some 0 else (findTargetIdx t ss).map (· + 1)

/-- Embeds defaultBalancer.Balance (src/dnsdisco.go lines 243-309). -/
def Balance (rs : Nat → Nat) (servers : List Server) : Int :=
  match findTargetIdx (balanceLoop rs servers 0 (priorities servers)) servers with
  | some i => (i : Int)
  | none => -1

/-- Modelled from the spec: the asynchronous refresh state of §4.2/§5. The
implementation of RefreshAsync's error log and of the errors() accessor is
absent from src (the revision at src/random_test.go lines 160-179 still
discards tick errors behind a TODO, and Errors() appears only in its caller
TestRefreshAsync, src/dnsdisco_test.go lines 535-667); the Discovery state
plus an accumulated error list is modelled from the spec's words. -/
structure AsyncDiscovery (E : Type) where
  d : Discovery
  errlog : List E
deriving Repr

/-- Modelled from the spec: one tick of the background loop started by
refreshAsync — it runs Refresh and, on failure, appends the error to the
internal error log rather than throwing; the loop then continues. -/
def refreshTick {E : Type} (ret : Option E × List SRVnet)
    (a : AsyncDiscovery E) : AsyncDiscovery E :=
  match Refresh ret a.d with
  | (some e, d2) => ⟨d2, a.errlog ++ [e]⟩
  | (none, d2) => ⟨d2, a.errlog⟩

/-- Modelled from the spec: the background loop never halts on an error — it
keeps applying ticks, in order, for every retriever outcome. -/
def runTicks {E : Type} (rets : List (Option E × List SRVnet))
    (a : AsyncDiscovery E) : AsyncDiscovery E :=
  rets.foldl (fun a r => refreshTick r a) a

/-- Modelled from the spec: errors() returns the accumulated list of
asynchronous refresh errors without clearing it. -/
def errorsOf {E : Type} (a : AsyncDiscovery E) : List E := a.errlog

/-- Extracts the error of one retriever outcome, if any. -/
def tickError {E : Type} (ret : Option E × List SRVnet) : Option E := ret.1

/- Concrete inputs used by the counterexample and witness theorems. -/

/-- Counterexample input for claim C1: a healthy server (index 1) sits at
priority tier 10, but its Used count 1 exceeds the tier minimum 0 set by the
unhealthy index 0, so the tier is skipped and the priority-20 server at
index 2 is returned. -/
def exC1 : List Server :=
  [⟨"a", 1, 10, 1, false, 0, 0⟩, ⟨"b", 2, 10, 1, true, 0, 1⟩,
   ⟨"c", 3, 20, 1, true, 0, 0⟩]

/-- Counterexample input for claim C2: two servers share the target "a"; the
healthy one (index 1) is selected but the final lookup by target string
returns the unhealthy first occurrence (index 0). -/
def exC2 : List Server :=
  [⟨"a", 1, 10, 1, false, 0, 0⟩, ⟨"a", 2, 10, 1, true, 0, 0⟩]

/-- Counterexample input for claim C3, first variant: the unhealthy server at
index 0 has Used = 0, which excludes the healthy server (Used = 1) from
candidacy, so nothing is selected. -/
def exC3a : List Server :=
  [⟨"a", 1, 10, 1, false, 0, 0⟩, ⟨"b", 2, 10, 1, true, 0, 1⟩]

/-- Counterexample input for claim C3, second variant: identical to exC3a
except that the unhealthy server's Used count is raised to 1; now the healthy
server is a candidate and is returned. -/
def exC3b : List Server :=
  [⟨"a", 1, 10, 1, false, 0, 1⟩, ⟨"b", 2, 10, 1, true, 0, 1⟩]

/-- Failing input for claim C4: two healthy same-priority servers with
weights 2 and 1; with draw r = 0 the claimed rule picks index 0 (running
prefix sum 2 >= 0) but the code returns index 1. -/
def exC4 : List Server :=
  [⟨"a", 1, 10, 2, true, 0, 0⟩, ⟨"b", 2, 10, 1, true, 0, 0⟩]

/-- Witness input: a single healthy server. -/
def exW1 : List Server := [⟨"x", 7, 10, 1, true, 0, 0⟩]

/-- Witness servers for the Choose/health-check theorems: the first server is
stale at time 10 (last checked at 0), the second is fresh (last checked
at 8). -/
def exW2 : List Server :=
  [⟨"a", 1, 10, 1, false, 0, 0⟩, ⟨"b", 2, 10, 1, true, 8, 0⟩]

/-- Witness probe that reports every target alive. -/
def probeUp : String → Nat → Bool × Bool := fun _ _ => (true, true)

/-- The tracking fields of a server that drive the health-check loop. -/
def trackKey (s : Server) : String × Nat × Int :=
  (s.Target, s.Port, s.lastHealthCheckAt)

/- Auxiliary lemmas about the embedded operations. -/

theorem getD_mem {α : Type} (d : α) :
    ∀ (l : List α) (i : Nat), i < l.length → l.getD i d ∈ l := by
  intro l
  induction l with
  | nil => intro i h; simp at h
  | cons x xs ih =>
    intro i h
    cases i with
    | zero => simp [List.getD]
    | succ j =>
      simp only [List.getD_cons_succ]
      exact List.mem_cons_of_mem x (ih j (by simpa using h))

theorem findTargetIdx_isSome {t : String} :
    ∀ {l : List Server}, (∃ s ∈ l, s.Target = t) →
      (findTargetIdx t l).isSome = true := by
  intro l
  induction l with
  | nil => rintro ⟨s, hs, -⟩; simp at hs
  | cons x xs ih =>
    rintro ⟨s, hs, hst⟩
    by_cases hx : x.Target = t
    · simp [findTargetIdx, hx]
    · rcases List.mem_cons.mp hs with rfl | hmem
      · exact absurd hst hx
      · have := ih ⟨s, hmem, hst⟩
        simp only [findTargetIdx, if_neg hx]
        cases h : findTargetIdx t xs with
        | none => rw [h] at this; simp at this
        | some j => simp [h]

theorem findTargetIdx_some {t : String} :
    ∀ {l : List Server} {i : Nat}, findTargetIdx t l = some i →
      i < l.length ∧ (l.getD i zeroServer).Target = t := by
  intro l
  induction l with
  | nil => intro i h; simp [findTargetIdx] at h
  | cons x xs ih =>
    intro i h
    by_cases hx : x.Target = t
    · simp [findTargetIdx, hx] at h
      subst h; simpa [List.getD] using hx
    · simp only [findTargetIdx, if_neg hx] at h
      cases hrec : findTargetIdx t xs with
      | none => rw [hrec] at h; simp at h
      | some j =>
        rw [hrec] at h
        simp only [Option.map] at h
        obtain ⟨hj, hjt⟩ := ih hrec
        cases h
        exact ⟨by simpa using Nat.succ_lt_succ hj, by simpa [List.getD] using hjt⟩

theorem mem_serversByPriority {p : Nat} {servers : List Server} {s : Server} :
    s ∈ serversByPriority p servers ↔ s ∈ servers ∧ s.Priority = p := by
  simp [serversByPriority, List.mem_filter]

theorem targets_unique :
    ∀ {l : List Server},
      l.Pairwise (fun a b => a.Target ≠ b.Target) →
      ∀ {s : Server}, s ∈ l → ∀ i, i < l.length →
        (l.getD i zeroServer).Target = s.Target → l.getD i zeroServer = s := by
  intro l
  induction l with
  | nil => intro _ s hs; simp at hs
  | cons x xs ih =>
    intro hpw s hs i hi ht
    have hpx := (List.pairwise_cons.mp hpw).1
    have hpxs := (List.pairwise_cons.mp hpw).2
    cases i with
    | zero =>
      simp only [List.getD_cons_zero] at ht ⊢
      rcases List.mem_cons.mp hs with rfl | hmem
      · rfl
      · exact absurd ht (hpx s hmem)
    | succ j =>
      simp only [List.getD_cons_succ] at ht ⊢
      have hj : j < xs.length := by simpa using hi
      rcases List.mem_cons.mp hs with rfl | hmem
      · have : xs.getD j zeroServer ∈ xs := getD_mem zeroServer xs j hj
        exact absurd ht.symm (hpx _ this)
      · exact ih hpxs hmem j hj ht

theorem minFold_le_init :
    ∀ (ss : List Server) (m : Int), 0 ≤ m →
      ss.foldl
        (fun m s => if (s.Used : Int) < m ∨ m = -1 then (s.Used : Int) else m)
        m ≤ m := by
  intro ss
  induction ss with
  | nil => intro m _; simp
  | cons x xs ih =>
    intro m hm
    simp only [List.foldl_cons]
    by_cases hx : (x.Used : Int) < m
    · have h1 : (if (x.Used : Int) < m ∨ m = -1 then (x.Used : Int) else m)
          = (x.Used : Int) := by simp [hx]
      rw [h1]
      exact le_trans (ih _ (by positivity)) (le_of_lt hx)
    · have hm1 : ¬ m = -1 := by omega
      have h1 : (if (x.Used : Int) < m ∨ m = -1 then (x.Used : Int) else m)
          = m := by simp [hx, hm1]
      rw [h1]
      exact ih _ hm

theorem minFold_le_mem :
    ∀ (ss : List Server) (m : Int), 0 ≤ m →
      ∀ s ∈ ss,
        ss.foldl
          (fun m s => if (s.Used : Int) < m ∨ m = -1 then (s.Used : Int) else m)
          m ≤ (s.Used : Int) := by
  intro ss
  induction ss with
  | nil => intro m _ s hs; simp at hs
  | cons x xs ih =>
    intro m hm s hs
    simp only [List.foldl_cons]
    have hm1 : ¬ m = -1 := by omega
    rcases List.mem_cons.mp hs with rfl | hmem
    · by_cases hx : (s.Used : Int) < m
      · have h1 : (if (s.Used : Int) < m ∨ m = -1 then (s.Used : Int) else m)
            = (s.Used : Int) := by simp [hx]
        rw [h1]; exact minFold_le_init xs _ (by positivity)
      · have h1 : (if (s.Used : Int) < m ∨ m = -1 then (s.Used : Int) else m)
            = m := by simp [hx, hm1]
        rw [h1]
        exact le_trans (minFold_le_init xs m hm) (by omega)
    · by_cases hx : (x.Used : Int) < m
      · have h1 : (if (x.Used : Int) < m ∨ m = -1 then (x.Used : Int) else m)
            = (x.Used : Int) := by simp [hx]
        rw [h1]; exact ih _ (by positivity) s hmem
      · have h1 : (if (x.Used : Int) < m ∨ m = -1 then (x.Used : Int) else m)
            = m := by simp [hx, hm1]
        rw [h1]; exact ih _ hm s hmem

theorem minFold_attained :
    ∀ (ss : List Server) (m : Int), 0 ≤ m →
      ss.foldl
        (fun m s => if (s.Used : Int) < m ∨ m = -1 then (s.Used : Int) else m)
        m = m ∨
      ∃ s ∈ ss,
        ss.foldl
          (fun m s => if (s.Used : Int) < m ∨ m = -1 then (s.Used : Int) else m)
          m = (s.Used : Int) := by
  intro ss
  induction ss with
  | nil => intro m _; left; simp
  | cons x xs ih =>
    intro m hm
    simp only [List.foldl_cons]
    have hm1 : ¬ m = -1 := by omega
    by_cases hx : (x.Used : Int) < m
    · have h1 : (if (x.Used : Int) < m ∨ m = -1 then (x.Used : Int) else m)
          = (x.Used : Int) := by simp [hx]
      rw [h1]
      rcases ih (x.Used : Int) (by positivity) with h | ⟨s, hs, h⟩
      · right; exact ⟨x, List.mem_cons_self x xs, h⟩
      · right; exact ⟨s, List.mem_cons_of_mem x hs, h⟩
    · have h1 : (if (x.Used : Int) < m ∨ m = -1 then (x.Used : Int) else m)
          = m := by simp [hx, hm1]
      rw [h1]
      rcases ih m hm with h | ⟨s, hs, h⟩
      · left; exact h
      · right; exact ⟨s, List.mem_cons_of_mem x hs, h⟩

theorem minimumUsed_cons (x : Server) (xs : List Server) :
    minimumUsed (x :: xs) =
      xs.foldl
        (fun m s => if (s.Used : Int) < m ∨ m = -1 then (s.Used : Int) else m)
        (x.Used : Int) := by
  simp [minimumUsed]

theorem minimumUsed_le {ss : List Server} {s : Server} (hs : s ∈ ss) :
    minimumUsed ss ≤ (s.Used : Int) := by
  cases ss with
  | nil => simp at hs
  | cons x xs =>
    rw [minimumUsed_cons]
    rcases List.mem_cons.mp hs with rfl | hmem
    · exact minFold_le_init xs _ (by positivity)
    · exact minFold_le_mem xs _ (by positivity) s hmem

theorem minimumUsed_attained {ss : List Server} (h : ss ≠ []) :
    ∃ s ∈ ss, (s.Used : Int) = minimumUsed ss := by
  cases ss with
  | nil => exact absurd rfl h
  | cons x xs =>
    rw [minimumUsed_cons]
    rcases minFold_attained xs (x.Used : Int) (by positivity) with h1 | ⟨s, hs, h1⟩
    · exact ⟨x, List.mem_cons_self x xs, h1.symm⟩
    · exact ⟨s, List.mem_cons_of_mem x hs, h1.symm⟩

theorem mem_keptServers {ss : List Server} {s : Server} :
    s ∈ keptServers ss ↔ s ∈ ss ∧ (s.Used : Int) ≤ minimumUsed ss := by
  simp [keptServers, List.mem_filter]

theorem keptServers_subset {ss : List Server} {s : Server}
    (h : s ∈ keptServers ss) : s ∈ ss :=
  (mem_keptServers.mp h).1

theorem keptServers_ne_nil {ss : List Server} (h : ss ≠ []) :
    keptServers ss ≠ [] := by
  obtain ⟨s, hs, hmin⟩ := minimumUsed_attained h
  have : s ∈ keptServers ss := mem_keptServers.mpr ⟨hs, le_of_eq hmin⟩
  exact List.ne_nil_of_mem this

theorem mem_keptServers_iff_min {ss : List Server} {s : Server} :
    s ∈ keptServers ss ↔ s ∈ ss ∧ ∀ t ∈ ss, s.Used ≤ t.Used := by
  constructor
  · intro h
    obtain ⟨hmem, hle⟩ := mem_keptServers.mp h
    refine ⟨hmem, fun t ht => ?_⟩
    have := minimumUsed_le ht
    omega
  · rintro ⟨hmem, hall⟩
    refine mem_keptServers.mpr ⟨hmem, ?_⟩
    obtain ⟨t, ht, htmin⟩ := minimumUsed_attained (List.ne_nil_of_mem hmem)
    have := hall t ht
    omega

theorem length_runningSumsFrom :
    ∀ (ws : List Nat) (acc : Nat), (runningSumsFrom acc ws).length = ws.length := by
  intro ws
  induction ws with
  | nil => intro acc; rfl
  | cons w ws ih => intro acc; simp [runningSumsFrom, ih]

theorem getD_last_runningSumsFrom :
    ∀ (ws : List Nat) (acc : Nat), ws ≠ [] →
      (runningSumsFrom acc ws).getD (ws.length - 1) 0 = acc + ws.sum := by
  intro ws
  induction ws with
  | nil => intro acc h; exact absurd rfl h
  | cons w ws ih =>
    intro acc _
    cases ws with
    | nil => simp [runningSumsFrom]
    | cons v vs =>
      have h1 := ih (acc + w) (by simp)
      show ((acc + w) :: runningSumsFrom (acc + w) (v :: vs)).getD
          ((v :: vs).length + 1 - 1) 0 = acc + (w :: v :: vs).sum
      have h2 : (v :: vs).length + 1 - 1 = ((v :: vs).length - 1) + 1 := by simp
      rw [h2, List.getD_cons_succ, h1]
      simp only [List.sum_cons]
      omega

theorem selectedWeights_length (kept : List Server) :
    (selectedWeights kept).length = kept.length := by
  simp [selectedWeights, runningSums, length_runningSumsFrom]

theorem selectedWeights_last {kept : List Server} (h : kept ≠ []) :
    (selectedWeights kept).getD (kept.length - 1) 0 = totalWeight kept := by
  have hne : kept.reverse.map Server.Weight ≠ [] := by
    simp [List.map_eq_nil_iff, h]
  have hlen : (kept.reverse.map Server.Weight).length = kept.length := by simp
  have := getD_last_runningSumsFrom (kept.reverse.map Server.Weight) 0 hne
  rw [hlen] at this
  rw [selectedWeights, runningSums, this]
  simp [totalWeight, List.map_reverse, List.sum_reverse]

theorem selDesc_some {r : Nat} {weights : List Nat} {cands : List Server} :
    ∀ {n : Nat} {s : Server}, selDesc r weights cands n = some s →
      ∃ i, i < n ∧ s = cands.getD i zeroServer ∧
        (cands.getD i zeroServer).LastHealthCheck = true := by
  intro n
  induction n with
  | zero => intro s h; simp [selDesc] at h
  | succ m ih =>
    intro s h
    by_cases hc : r ≤ weights.getD m 0 ∧ (cands.getD m zeroServer).LastHealthCheck
    · rw [selDesc, if_pos hc] at h
      cases h
      exact ⟨m, Nat.lt_succ_self m, rfl, by simpa using hc.2⟩
    · rw [selDesc, if_neg hc] at h
      obtain ⟨i, hi, hs, hh⟩ := ih h
      exact ⟨i, Nat.lt_succ_of_lt hi, hs, hh⟩

theorem selDesc_top {r : Nat} {weights : List Nat} {cands : List Server}
    {m : Nat} (hw : r ≤ weights.getD m 0)
    (hh : (cands.getD m zeroServer).LastHealthCheck = true) :
    selDesc r weights cands (m + 1) = some (cands.getD m zeroServer) := by
  rw [selDesc, if_pos ⟨hw, by simpa using hh⟩]

theorem tierPick_some_mem {r : Nat} {ss : List Server} {s : Server}
    (h : tierPick r ss = some s) :
    s ∈ keptServers ss ∧ s.LastHealthCheck = true := by
  obtain ⟨i, hi, hs, hh⟩ := selDesc_some h
  subst hs
  exact ⟨getD_mem zeroServer (keptServers ss) i hi, hh⟩

theorem tierPick_isSome {r : Nat} {ss : List Server} (hne : ss ≠ [])
    (hhealthy : ∀ t ∈ keptServers ss, t.LastHealthCheck = true)
    (hr : r ≤ totalWeight (keptServers ss)) :
    tierPick r ss = some ((keptServers ss).getD ((keptServers ss).length - 1)
      zeroServer) := by
  have hk : keptServers ss ≠ [] := keptServers_ne_nil hne
  obtain ⟨m, hm⟩ : ∃ m, (keptServers ss).length = m + 1 := by
    cases hlen : (keptServers ss).length with
    | zero => exact absurd (List.length_eq_zero.mp hlen) hk
    | succ m => exact ⟨m, rfl⟩
  have hwlast : (selectedWeights (keptServers ss)).getD m 0
      = totalWeight (keptServers ss) := by
    have := selectedWeights_last hk
    rwa [hm, Nat.add_sub_cancel] at this
  have hmemlast : (keptServers ss).getD m zeroServer ∈ keptServers ss :=
    getD_mem zeroServer _ m (by omega)
  have hhl : ((keptServers ss).getD m zeroServer).LastHealthCheck = true :=
    hhealthy _ hmemlast
  have := @selDesc_top r (selectedWeights (keptServers ss)) (keptServers ss)
    m (hwlast ▸ hr) hhl
  rw [tierPick, hm, this]
  simp

theorem mem_insertPriority {q p : Nat} :
    ∀ {l : List Nat}, q ∈ insertPriority p l ↔ q = p ∨ q ∈ l := by
  intro l
  induction l with
  | nil => simp [insertPriority]
  | cons x xs ih =>
    by_cases h1 : p < x
    · simp [insertPriority, h1]
    · by_cases h2 : p = x
      · subst h2
        simp only [insertPriority, if_neg h1, if_pos rfl]
        constructor
        · intro h; exact Or.inr h
        · rintro (rfl | h)
          · exact List.mem_cons_self _ _
          · exact h
      · simp only [insertPriority, if_neg h1, if_neg h2, List.mem_cons, ih]
        tauto

theorem pairwise_insertPriority {p : Nat} :
    ∀ {l : List Nat}, l.Pairwise (· < ·) →
      (insertPriority p l).Pairwise (· < ·) := by
  intro l
  induction l with
  | nil => intro _; simp [insertPriority]
  | cons x xs ih =>
    intro hpw
    obtain ⟨hx, hxs⟩ := List.pairwise_cons.mp hpw
    by_cases h1 : p < x
    · rw [insertPriority, if_pos h1]
      refine List.pairwise_cons.mpr ⟨?_, hpw⟩
      intro b hb
      rcases List.mem_cons.mp hb with rfl | hbm
      · exact h1
      · exact lt_trans h1 (hx b hbm)
    · by_cases h2 : p = x
      · rw [insertPriority, if_neg h1, if_pos h2]; exact hpw
      · rw [insertPriority, if_neg h1, if_neg h2]
        refine List.pairwise_cons.mpr ⟨?_, ih hxs⟩
        intro b hb
        rcases mem_insertPriority.mp hb with rfl | hbm
        · omega
        · exact hx b hbm

theorem foldl_insert_mem {q : Nat} :
    ∀ (l : List Server) (acc : List Nat),
      q ∈ l.foldl (fun a s => insertPriority s.Priority a) acc ↔
        q ∈ acc ∨ ∃ s ∈ l, s.Priority = q := by
  intro l
  induction l with
  | nil => intro acc; simp
  | cons x xs ih =>
    intro acc
    simp only [List.foldl_cons, ih, mem_insertPriority, List.mem_cons]
    constructor
    · rintro ((rfl | h) | ⟨s, hs, rfl⟩)
      · exact Or.inr ⟨x, Or.inl rfl, rfl⟩
      · exact Or.inl h
      · exact Or.inr ⟨s, Or.inr hs, rfl⟩
    · rintro (h | ⟨s, (rfl | hs), rfl⟩)
      · exact Or.inl (Or.inr h)
      · exact Or.inl (Or.inl rfl)
      · exact Or.inr ⟨s, hs, rfl⟩

theorem foldl_insert_pairwise :
    ∀ (l : List Server) (acc : List Nat), acc.Pairwise (· < ·) →
      (l.foldl (fun a s => insertPriority s.Priority a) acc).Pairwise (· < ·) := by
  intro l
  induction l with
  | nil => intro acc h; simpa using h
  | cons x xs ih =>
    intro acc h
    exact ih _ (pairwise_insertPriority h)

theorem mem_priorities {q : Nat} {servers : List Server} :
    q ∈ priorities servers ↔ ∃ s ∈ servers, s.Priority = q := by
  rw [priorities, foldl_insert_mem]
  simp

theorem priorities_pairwise (servers : List Server) :
    (priorities servers).Pairwise (· < ·) :=
  foldl_insert_pairwise servers [] (by simp)

theorem balanceLoop_cons_none {rs : Nat → Nat} {servers : List Server}
    {k p : Nat} {ps : List Nat}
    (h : tierPick
      (rs k % (totalWeight (keptServers (serversByPriority p servers)) + 1))
      (serversByPriority p servers) = none) :
    balanceLoop rs servers k (p :: ps) = balanceLoop rs servers (k + 1) ps := by
  simp only [balanceLoop, h]

theorem balanceLoop_cons_some {rs : Nat → Nat} {servers : List Server}
    {k p : Nat} {ps : List Nat} {s : Server}
    (h : tierPick
      (rs k % (totalWeight (keptServers (serversByPriority p servers)) + 1))
      (serversByPriority p servers) = some s) :
    balanceLoop rs servers k (p :: ps) =
      if s.Target = "" then balanceLoop rs servers (k + 1) ps else s.Target := by
  simp only [balanceLoop, h]

theorem balanceLoop_sound (rs : Nat → Nat) (servers : List Server) :
    ∀ (ps : List Nat) (k : Nat),
      balanceLoop rs servers k ps = "" ∨
      ∃ s, s ∈ servers ∧ s.LastHealthCheck = true ∧
        s.Target = balanceLoop rs servers k ps ∧ s.Target ≠ "" ∧
        ∃ p ∈ ps, s.Priority = p := by
  intro ps
  induction ps with
  | nil => intro k; left; rfl
  | cons p ps ih =>
    intro k
    cases htp : tierPick
        (rs k % (totalWeight (keptServers (serversByPriority p servers)) + 1))
        (serversByPriority p servers) with
    | none =>
      rw [balanceLoop_cons_none htp]
      rcases ih (k + 1) with h | ⟨s, hmem, hh, ht, hne, q, hq, hpr⟩
      · left; exact h
      · right
        exact ⟨s, hmem, hh, ht, hne, q, List.mem_cons_of_mem p hq, hpr⟩
    | some s =>
      rw [balanceLoop_cons_some htp]
      by_cases hs0 : s.Target = ""
      · rw [if_pos hs0]
        rcases ih (k + 1) with h | ⟨u, hmem, hh, ht, hne, q, hq, hpr⟩
        · left; exact h
        · right
          exact ⟨u, hmem, hh, ht, hne, q, List.mem_cons_of_mem p hq, hpr⟩
      · rw [if_neg hs0]
        obtain ⟨hkept, hh⟩ := tierPick_some_mem htp
        obtain ⟨hmem, hpr⟩ := mem_serversByPriority.mp (keptServers_subset hkept)
        right
        exact ⟨s, hmem, hh, rfl, hs0, p, List.mem_cons_self p ps, hpr⟩

theorem balanceLoop_dominates (rs : Nat → Nat) (servers : List Server) (P : Nat)
    (hne : ∀ s ∈ servers, s.Target ≠ "")
    (hkeptP : ∀ s ∈ keptServers (serversByPriority P servers),
      s.LastHealthCheck = true)
    (htier : serversByPriority P servers ≠ []) :
    ∀ (ps : List Nat) (k : Nat), ps.Pairwise (· < ·) → P ∈ ps →
      ∃ s, s ∈ servers ∧ s.LastHealthCheck = true ∧ s.Priority ≤ P ∧
        s.Target ≠ "" ∧ balanceLoop rs servers k ps = s.Target := by
  intro ps
  induction ps with
  | nil => intro k _ hP; simp at hP
  | cons p ps ih =>
    intro k hpw hP
    have hple : p ≤ P := by
      rcases List.mem_cons.mp hP with h | hmem
      · omega
      · exact le_of_lt ((List.pairwise_cons.mp hpw).1 P hmem)
    cases htp : tierPick
        (rs k % (totalWeight (keptServers (serversByPriority p servers)) + 1))
        (serversByPriority p servers) with
    | some s =>
      obtain ⟨hkept, hh⟩ := tierPick_some_mem htp
      obtain ⟨hmem, hpr⟩ := mem_serversByPriority.mp (keptServers_subset hkept)
      have hs0 : s.Target ≠ "" := hne s hmem
      refine ⟨s, hmem, hh, ?_, hs0, ?_⟩
      · omega
      · rw [balanceLoop_cons_some htp, if_neg hs0]
    | none =>
      have hpP : p ≠ P := by
        intro h
        rw [← h] at htier hkeptP
        have hr : rs k % (totalWeight (keptServers (serversByPriority p servers)) + 1)
            ≤ totalWeight (keptServers (serversByPriority p servers)) := by
          have h0 : 0 < totalWeight (keptServers (serversByPriority p servers)) + 1 := by
            omega
          have := Nat.mod_lt (rs k) h0
          omega
        have := tierPick_isSome htier hkeptP hr
        rw [htp] at this
        exact Option.noConfusion this
      have hPps : P ∈ ps := by
        rcases List.mem_cons.mp hP with rfl | hmem
        · exact absurd rfl hpP
        · exact hmem
      rw [balanceLoop_cons_none htp]
      exact ih (k + 1) (List.pairwise_cons.mp hpw).2 hPps

theorem healthCheckPhase_fst (now ttl : Int) (probe : String → Nat → Bool × Bool) :
    ∀ ss : List Server,
      (healthCheckPhase now ttl probe ss).1 = ss.map (checkServer now ttl probe) := by
  intro ss
  induction ss with
  | nil => rfl
  | cons s rest ih =>
    cases h : staleB now ttl s with
    | true => simp [healthCheckPhase, h, checkServer, ih]
    | false => simp [healthCheckPhase, h, checkServer, ih]

theorem healthCheckPhase_snd (now ttl : Int) (probe : String → Nat → Bool × Bool) :
    ∀ ss : List Server,
      (healthCheckPhase now ttl probe ss).2 =
        (ss.filter (staleB now ttl)).map (fun s => (s.Target, s.Port)) := by
  intro ss
  induction ss with
  | nil => rfl
  | cons s rest ih =>
    cases h : staleB now ttl s with
    | true => simp [healthCheckPhase, h, ih]
    | false => simp [healthCheckPhase, h, ih]

theorem staleB_congr {now ttl : Int} {a b : Server}
    (h : trackKey a = trackKey b) : staleB now ttl a = staleB now ttl b := by
  have : a.lastHealthCheckAt = b.lastHealthCheckAt := by
    simpa [trackKey] using congrArg (fun k => k.2.2) h
  simp [staleB, this]

theorem filter_stale_log_congr (now ttl : Int) :
    ∀ (l1 l2 : List Server), l1.map trackKey = l2.map trackKey →
      (l1.filter (staleB now ttl)).map (fun s => (s.Target, s.Port)) =
        (l2.filter (staleB now ttl)).map (fun s => (s.Target, s.Port)) := by
  intro l1
  induction l1 with
  | nil =>
    intro l2 h
    cases l2 with
    | nil => rfl
    | cons y ys => simp at h
  | cons x xs ih =>
    intro l2 h
    cases l2 with
    | nil => simp at h
    | cons y ys =>
      simp only [List.map_cons, List.cons.injEq] at h
      obtain ⟨hxy, hrest⟩ := h
      have hkey : x.Target = y.Target ∧ x.Port = y.Port := by
        constructor
        · simpa [trackKey] using congrArg (fun k => k.1) hxy
        · simpa [trackKey] using congrArg (fun k => k.2.1) hxy
      have hst := @staleB_congr now ttl x y hxy
      cases hy : staleB now ttl y with
      | true =>
        rw [hy] at hst
        simp [List.filter_cons, hst, hy, hkey.1, hkey.2, ih ys hrest]
      | false =>
        rw [hy] at hst
        simp [List.filter_cons, hst, hy, ih ys hrest]

theorem checkServer_map_after {now now2 ttl : Int}
    (probe : String → Nat → Bool × Bool) (h : now2 - now < ttl) :
    ∀ ss : List Server,
      ((ss.map (checkServer now ttl probe)).filter (staleB now2 ttl)).map
          (fun s => (s.Target, s.Port)) =
        ((ss.filter (fun s => !staleB now ttl s)).filter (staleB now2 ttl)).map
          (fun s => (s.Target, s.Port)) := by
  intro ss
  induction ss with
  | nil => rfl
  | cons s rest ih =>
    cases hs : staleB now ttl s with
    | true =>
      have hcs : checkServer now ttl probe s =
          { s with LastHealthCheck := probeHealthy (probe s.Target s.Port),
                   lastHealthCheckAt := now } := by
        simp [checkServer, hs]
      have hnot : staleB now2 ttl (checkServer now ttl probe s) = false := by
        rw [hcs]
        simp [staleB]
        omega
      simp [List.filter_cons, hnot, hs, ih]
    | false =>
      have hcs : checkServer now ttl probe s = s := by simp [checkServer, hs]
      cases h2 : staleB now2 ttl s with
      | true => simp [List.filter_cons, hcs, hs, h2, ih]
      | false => simp [List.filter_cons, hcs, hs, h2, ih]

theorem incUsed_trackKey :
    ∀ (ss : List Server) (n : Nat),
      (incUsed ss n).map trackKey = ss.map trackKey := by
  intro ss
  induction ss with
  | nil => intro n; rfl
  | cons s rest ih =>
    intro n
    cases n with
    | zero => simp [incUsed, trackKey]
    | succ m => simp [incUsed, ih m]

theorem incUsed_length :
    ∀ (ss : List Server) (n : Nat), (incUsed ss n).length = ss.length := by
  intro ss
  induction ss with
  | nil => intro n; rfl
  | cons s rest ih =>
    intro n
    cases n with
    | zero => simp [incUsed]
    | succ m => simp [incUsed, ih m]

theorem getD_incUsed_self :
    ∀ (ss : List Server) (n : Nat), n < ss.length →
      (incUsed ss n).getD n zeroServer =
        { ss.getD n zeroServer with Used := (ss.getD n zeroServer).Used + 1 } := by
  intro ss
  induction ss with
  | nil => intro n h; simp at h
  | cons s rest ih =>
    intro n h
    cases n with
    | zero => simp [incUsed, List.getD]
    | succ m =>
      simp only [incUsed, List.getD_cons_succ]
      exact ih m (by simpa using h)

theorem getD_incUsed_ne :
    ∀ (ss : List Server) (n m : Nat), m ≠ n →
      (incUsed ss n).getD m zeroServer = ss.getD m zeroServer := by
  intro ss
  induction ss with
  | nil => intro n m _; rfl
  | cons s rest ih =>
    intro n m hm
    cases n with
    | zero =>
      cases m with
      | zero => exact absurd rfl hm
      | succ j => simp [incUsed, List.getD]
    | succ k =>
      cases m with
      | zero => simp [incUsed, List.getD]
      | succ j =>
        simp only [incUsed, List.getD_cons_succ]
        exact ih k j (by omega)

theorem runTicks_errlog (E : Type) :
    ∀ (rets : List (Option E × List SRVnet)) (a : AsyncDiscovery E),
      (runTicks rets a).errlog = a.errlog ++ rets.filterMap tickError := by
  intro rets
  induction rets with
  | nil => intro a; simp [runTicks]
  | cons r rets ih =>
    intro a
    cases r with
    | mk e? l =>
      cases e? with
      | none =>
        simp only [runTicks, List.foldl_cons] at ih ⊢
        rw [ih]
        simp [refreshTick, Refresh, tickError, List.filterMap_cons]
      | some e =>
        simp only [runTicks, List.foldl_cons] at ih ⊢
        rw [ih]
        simp [refreshTick, Refresh, tickError, List.filterMap_cons]

theorem runTicks_append (E : Type)
    (xs ys : List (Option E × List SRVnet)) (a : AsyncDiscovery E) :
    runTicks (xs ++ ys) a = runTicks ys (runTicks xs a) := by
  simp [runTicks, List.foldl_append]

theorem Balance_eq_none {rs : Nat → Nat} {servers : List Server}
    (h : findTargetIdx (balanceLoop rs servers 0 (priorities servers))
      servers = none) : Balance rs servers = -1 := by
  simp only [Balance, h]

theorem Balance_eq_some {rs : Nat → Nat} {servers : List Server} {i : Nat}
    (h : findTargetIdx (balanceLoop rs servers 0 (priorities servers))
      servers = some i) : Balance rs servers = (i : Int) := by
  simp only [Balance, h]

/- Claim theorems. -/

/-- C1 counterexample: the claim "if a healthy server exists at priority tier
P, Balance never returns the index of a server whose priority is greater than
P" is false. In exC1 the server at index 1 is healthy at tier 10, yet Balance
returns index 2, a tier-20 server: the tier minimum Used count (0, set by the
unhealthy index 0) excludes the healthy index 1 (Used 1) from candidacy, so
tier 10 yields nothing and the algorithm falls through. -/
theorem balance_priority_dominance_counterexample :
    Balance (fun _ => 0) exC1 = 2 ∧
    (exC1.getD 1 zeroServer).LastHealthCheck = true ∧
    (exC1.getD 1 zeroServer).Priority = 10 ∧
    (exC1.getD 2 zeroServer).Priority = 20 := by
  refine ⟨by decide, by decide, by decide, by decide⟩

/-- C2 counterexample: the claim "Balance never returns the index of a server
whose LastHealthCheck is false, regardless of duplicate or empty target names"
is false. In exC2 the healthy server at index 1 is selected, but the final
lookup matches the selected target string "a" against the list and returns the
unhealthy first occurrence, index 0. -/
theorem balance_unhealthy_excluded_counterexample :
    Balance (fun _ => 0) exC2 = 0 ∧
    (exC2.getD 0 zeroServer).LastHealthCheck = false ∧
    (exC2.getD 1 zeroServer).LastHealthCheck = true := by
  refine ⟨by decide, by decide, by decide⟩

/-- C3 counterexample: the claim "the minimum Used count is computed over the
tier's healthy servers only, so an unhealthy server's Used count never
influences which healthy servers are candidates" is false. exC3a and exC3b
differ only in the Used count of the unhealthy server at index 0 (0 vs 1),
yet Balance returns -1 on exC3a and 1 on exC3b: the unhealthy server's Used
count decides whether the healthy server is a candidate. -/
theorem balance_fairness_counterexample :
    Balance (fun _ => 0) exC3a = -1 ∧
    Balance (fun _ => 0) exC3b = 1 ∧
    (exC3a.getD 0 zeroServer).LastHealthCheck = false ∧
    (exC3a.getD 1 zeroServer).LastHealthCheck = true ∧
    exC3b.getD 1 zeroServer = exC3a.getD 1 zeroServer ∧
    exC3b.getD 0 zeroServer =
      { exC3a.getD 0 zeroServer with Used := 1 } := by
  refine ⟨by decide, by decide, by decide, by decide, by decide, by decide⟩

/-- C3 (amended): within the priority tier being considered, Balance computes
the minimum Used count over ALL of that tier's servers — healthy and unhealthy
alike — and restricts candidacy for the weighted draw to the servers whose
Used count equals that minimum; in particular an unhealthy server's Used count
can exclude every healthy server from candidacy. -/
theorem balance_fairness_amended (servers : List Server) (p : Nat) (s : Server) :
    s ∈ keptServers (serversByPriority p servers) ↔
      s ∈ servers ∧ s.Priority = p ∧
        ∀ t ∈ servers, t.Priority = p → s.Used ≤ t.Used := by
  rw [mem_keptServers_iff_min]
  constructor
  · rintro ⟨hmem, hall⟩
    obtain ⟨hs, hp⟩ := mem_serversByPriority.mp hmem
    refine ⟨hs, hp, fun t ht htp => hall t (mem_serversByPriority.mpr ⟨ht, htp⟩)⟩
  · rintro ⟨hs, hp, hall⟩
    refine ⟨mem_serversByPriority.mpr ⟨hs, hp⟩, fun t ht => ?_⟩
    obtain ⟨ht2, htp⟩ := mem_serversByPriority.mp ht
    exact hall t ht2 htp

/-- C4: the weighted draw does not follow the claimed (and, in the function's
own RFC 2782 doc comment, quoted) rule "select the first candidate in list
order whose running prefix sum is greater than or equal to r". On exC4 the
restricted candidate list is the whole tier, its running prefix sums are
[2, 3], and with r = 0 the first candidate in list order (index 0) satisfies
2 >= 0 — yet Balance returns index 1: the code pairs the running sums with the
candidates in reverse order and scans from the last candidate downwards. -/
theorem balance_weighted_draw_bug :
    Balance (fun _ => 0) exC4 = 1 ∧
    keptServers (serversByPriority 10 exC4) = exC4 ∧
    runningSums (exC4.map Server.Weight) = [2, 3] ∧
    (exC4.getD 0 zeroServer).LastHealthCheck = true ∧
    (exC4.getD 1 zeroServer).LastHealthCheck = true := by
  refine ⟨by decide, by decide, by decide, by decide, by decide⟩

/-- C6: whenever the Retriever returns a non-nil error, Refresh returns that
same error unchanged and performs no mutation at all — the resulting Discovery
state, including every server's LastHealthCheck, lastHealthCheckAt and Used
field, is the input state itself (this holds even if the retriever returned
SRV records alongside the error). -/
theorem refresh_error_atomic (E : Type) (e : E) (srvs : List SRVnet)
    (d : Discovery) :
    Refresh (some e, srvs) d = (some e, d) := rfl

/-- C7: a successful Refresh replaces the Server Set wholesale with one
Tracked Server per retrieved SRV record, in the returned order, each carrying
the record's Target/Port/Priority/Weight with Used = 0, LastHealthCheck =
false and lastHealthCheckAt unset (the zero time); the result does not depend
on the previous Server Set in any way (a refresh never merges). -/
theorem refresh_replaces_wholesale (E : Type) (srvs : List SRVnet)
    (d d2 : Discovery) :
    (@Refresh E (none, srvs) d).1 = none ∧
    (@Refresh E (none, srvs) d).2.servers = srvs.map mkServer ∧
    (@Refresh E (none, srvs) d).2.servers =
      (@Refresh E (none, srvs) d2).2.servers ∧
    ((@Refresh E (none, srvs) d).2.servers).length = srvs.length ∧
    ∀ v : SRVnet,
      (mkServer v).Target = v.Target ∧ (mkServer v).Port = v.Port ∧
      (mkServer v).Priority = v.Priority ∧ (mkServer v).Weight = v.Weight ∧
      (mkServer v).Used = 0 ∧ (mkServer v).LastHealthCheck = false ∧
      (mkServer v).lastHealthCheckAt = 0 := by
  refine ⟨rfl, rfl, rfl, by simp [Refresh], fun v => ⟨rfl, rfl, rfl, rfl, rfl, rfl, rfl⟩⟩

/-- C9: every error produced by a tick of the background refresh loop is
appended, in occurrence order, to the internal error log rather than thrown;
errors() returns the accumulated list without clearing it (it is a pure read
of the state); and the loop never halts on an error — after any sequence of
ticks, a further successful tick still replaces the server set. -/
theorem refreshAsync_error_accumulation (E : Type)
    (rets : List (Option E × List SRVnet)) (a : AsyncDiscovery E)
    (l : List SRVnet) :
    errorsOf (runTicks rets a) = errorsOf a ++ rets.filterMap tickError ∧
    (∀ b : AsyncDiscovery E, errorsOf b = b.errlog) ∧
    (runTicks (rets ++ [(none, l)]) a).d.servers = l.map mkServer ∧
    errorsOf (runTicks (rets ++ [(none, l)]) a) = errorsOf (runTicks rets a) := by
  refine ⟨runTicks_errlog E rets a, fun b => rfl, ?_, ?_⟩
  · rw [runTicks_append]
    simp [runTicks, refreshTick, Refresh]
  · rw [runTicks_append]
    simp [runTicks, refreshTick, Refresh, errorsOf]

/-- C1 (amended): for every outcome of the random draw, if every server that
attains the minimum Used count of the (non-empty) priority-P tier is marked
healthy, and the servers' target names are pairwise distinct and non-empty,
then Balance returns the index of a server whose priority is at most P — a
tier with a higher priority number can only supply the result when every
lower-numbered tier yields no selected candidate. -/
theorem balance_priority_dominance_amended (rs : Nat → Nat)
    (servers : List Server) (P : Nat)
    (hdist : servers.Pairwise (fun a b => a.Target ≠ b.Target))
    (hne : ∀ s ∈ servers, s.Target ≠ "")
    (htier : serversByPriority P servers ≠ [])
    (hkeptP : ∀ s ∈ keptServers (serversByPriority P servers),
      s.LastHealthCheck = true) :
    ∃ n : Nat, Balance rs servers = (n : Int) ∧ n < servers.length ∧
      (servers.getD n zeroServer).Priority ≤ P := by
  have hP : P ∈ priorities servers := by
    cases hcase : serversByPriority P servers with
    | nil => exact absurd hcase htier
    | cons a l =>
      have ha : a ∈ serversByPriority P servers := by
        rw [hcase]; exact List.mem_cons_self a l
      obtain ⟨hmem, hpr⟩ := mem_serversByPriority.mp ha
      exact mem_priorities.mpr ⟨a, hmem, hpr⟩
  obtain ⟨s, hmem, hh, hpr, hs0, hloop⟩ :=
    balanceLoop_dominates rs servers P hne hkeptP htier (priorities servers) 0
      (priorities_pairwise servers) hP
  have hsome : (findTargetIdx (balanceLoop rs servers 0 (priorities servers))
      servers).isSome = true :=
    findTargetIdx_isSome ⟨s, hmem, hloop.symm⟩
  obtain ⟨i, hi⟩ := Option.isSome_iff_exists.mp hsome
  obtain ⟨hlen, htarget⟩ := findTargetIdx_some hi
  have hts : (servers.getD i zeroServer).Target = s.Target := by
    rw [htarget, hloop]
  have heq := targets_unique hdist hmem i hlen hts
  refine ⟨i, ?_, hlen, ?_⟩
  · exact Balance_eq_some hi
  · rw [heq]; exact hpr

/-- C1 witness: the amended dominance theorem applied to a concrete singleton
server set. -/
theorem balance_priority_dominance_witness :
    ∃ n : Nat, Balance (fun _ => 0) exW1 = (n : Int) ∧ n < exW1.length ∧
      (exW1.getD n zeroServer).Priority ≤ 10 :=
  balance_priority_dominance_amended (fun _ => 0) exW1 10 (by decide)
    (by decide) (by decide) (by decide)

/-- C2 (amended): for every outcome of the random draw, Balance never returns
the index of a server whose LastHealthCheck is false, provided the servers'
target names are pairwise distinct and non-empty (exC2 shows the proviso is
necessary). -/
theorem balance_unhealthy_excluded_amended (rs : Nat → Nat)
    (servers : List Server) (i : Nat)
    (hdist : servers.Pairwise (fun a b => a.Target ≠ b.Target))
    (hne : ∀ s ∈ servers, s.Target ≠ "")
    (hbal : Balance rs servers = (i : Int)) :
    i < servers.length ∧ (servers.getD i zeroServer).LastHealthCheck = true := by
  cases hfi : findTargetIdx (balanceLoop rs servers 0 (priorities servers))
      servers with
  | none =>
    rw [Balance_eq_none hfi] at hbal
    exact absurd hbal (by omega)
  | some j =>
    rw [Balance_eq_some hfi] at hbal
    have hji : j = i := by omega
    subst hji
    obtain ⟨hlen, htarget⟩ := findTargetIdx_some hfi
    rcases balanceLoop_sound rs servers (priorities servers) 0 with
      hempty | ⟨s, hmem, hh, ht, hs0, -⟩
    · have hmm : servers.getD j zeroServer ∈ servers :=
        getD_mem zeroServer servers j hlen
      rw [hempty] at htarget
      exact absurd htarget (hne _ hmm)
    · have hts : (servers.getD j zeroServer).Target = s.Target := by
        rw [htarget, ← ht]
      have heq := targets_unique hdist hmem j hlen hts
      rw [heq]
      exact ⟨hlen, hh⟩

/-- C2 witness: the amended exclusion theorem applied to a concrete singleton
server set on which Balance returns index 0. -/
theorem balance_unhealthy_excluded_witness :
    0 < exW1.length ∧ (exW1.getD 0 zeroServer).LastHealthCheck = true :=
  balance_unhealthy_excluded_amended (fun _ => 0) exW1 0 (by decide)
    (by decide) (by decide)

/-- C10: for every input and every outcome of the random draw the selection
algorithm is total and bounds-safe — Balance returns either -1 or an index i
with 0 <= i < length of the input; the argument of the random draw,
totalWeight + 1, is always at least 1; and Choose guards the returned index,
so no balancer result whatsoever changes the length of the server set or
causes an out-of-range access. -/
theorem balance_choose_safety (rs : Nat → Nat) (servers : List Server) :
    (Balance rs servers = -1 ∨
      (0 ≤ Balance rs servers ∧ Balance rs servers < (servers.length : Int))) ∧
    (∀ p : Nat, 0 < totalWeight (keptServers (serversByPriority p servers)) + 1) ∧
    (∀ (now ttl : Int) (probe : String → Nat → Bool × Bool)
        (bal : List Server → Int) (d : Discovery),
      ((Choose now ttl probe bal d).2.servers).length = d.servers.length) := by
  refine ⟨?_, fun p => Nat.succ_pos _, ?_⟩
  · cases hfi : findTargetIdx (balanceLoop rs servers 0 (priorities servers))
        servers with
    | none => left; exact Balance_eq_none hfi
    | some i =>
      right
      obtain ⟨hlen, -⟩ := findTargetIdx_some hfi
      rw [Balance_eq_some hfi]
      exact ⟨by omega, by exact_mod_cast hlen⟩
  · intro now ttl probe bal d
    have hchk : ((healthCheckPhase now ttl probe d.servers).1).length
        = d.servers.length := by
      rw [healthCheckPhase_fst]; simp
    simp only [Choose]
    by_cases hc : 0 ≤ bal ((healthCheckPhase now ttl probe d.servers).1) ∧
        bal ((healthCheckPhase now ttl probe d.servers).1) <
          (((healthCheckPhase now ttl probe d.servers).1).length : Int)
    · rw [if_pos hc]
      simp [incUsed_length, hchk]
    · rw [if_neg hc]
      simpa using hchk

/-- C5: in every Choose call the health-check loop invokes the HealthChecker
exactly once per stale server (lastHealthCheckAt not within the TTL window of
now), in list order, and never for a fresh one; each probed server's
LastHealthCheck is set to true exactly when the probe returned ok with nil
error and its lastHealthCheckAt is set to the current time, while fresh
servers are untouched; a second Choose call within the TTL window of the first
never probes a server the first call probed; and the default TTL is 5
seconds. -/
theorem choose_health_check_ttl (now now2 ttl : Int)
    (probe probe2 : String → Nat → Bool × Bool) (bal : List Server → Int)
    (d : Discovery) (h2 : now2 - now < ttl) :
    (healthCheckPhase now ttl probe d.servers).2
      = (d.servers.filter (staleB now ttl)).map (fun s => (s.Target, s.Port)) ∧
    (healthCheckPhase now ttl probe d.servers).1
      = d.servers.map (checkServer now ttl probe) ∧
    (∀ s : Server, staleB now ttl s = true →
      (checkServer now ttl probe s).LastHealthCheck
          = ((probe s.Target s.Port).2 && (probe s.Target s.Port).1) ∧
      (checkServer now ttl probe s).lastHealthCheckAt = now) ∧
    (∀ s : Server, staleB now ttl s = false →
      checkServer now ttl probe s = s) ∧
    (healthCheckPhase now2 ttl probe2 ((Choose now ttl probe bal d).2.servers)).2
      = ((d.servers.filter (fun s => !staleB now ttl s)).filter
          (staleB now2 ttl)).map (fun s => (s.Target, s.Port)) ∧
    defaultHealthCheckerTTL = 5 * 1000000000 := by
  refine ⟨healthCheckPhase_snd now ttl probe d.servers,
    healthCheckPhase_fst now ttl probe d.servers, ?_, ?_, ?_, by decide⟩
  · intro s hs
    constructor
    · simp [checkServer, hs, probeHealthy]
    · simp [checkServer, hs]
  · intro s hs
    simp [checkServer, hs]
  · have hkeys : ((Choose now ttl probe bal d).2.servers).map trackKey
        = ((healthCheckPhase now ttl probe d.servers).1).map trackKey := by
      simp only [Choose]
      by_cases hc : 0 ≤ bal ((healthCheckPhase now ttl probe d.servers).1) ∧
          bal ((healthCheckPhase now ttl probe d.servers).1) <
            (((healthCheckPhase now ttl probe d.servers).1).length : Int)
      · rw [if_pos hc]
        exact incUsed_trackKey _ _
      · rw [if_neg hc]
    rw [healthCheckPhase_snd,
        filter_stale_log_congr now2 ttl _ _ hkeys,
        healthCheckPhase_fst,
        checkServer_map_after probe h2 d.servers]

/-- C5 witness: the health-check theorem at concrete times 10 and 12 with TTL
5, on a server set containing one stale and one fresh server. -/
theorem choose_health_check_ttl_witness :
    (healthCheckPhase 10 5 probeUp (Discovery.mk exW2).servers).2
      = ((Discovery.mk exW2).servers.filter (staleB 10 5)).map
          (fun s => (s.Target, s.Port)) ∧
    (healthCheckPhase 10 5 probeUp (Discovery.mk exW2).servers).1
      = (Discovery.mk exW2).servers.map (checkServer 10 5 probeUp) ∧
    (∀ s : Server, staleB 10 5 s = true →
      (checkServer 10 5 probeUp s).LastHealthCheck
          = ((probeUp s.Target s.Port).2 && (probeUp s.Target s.Port).1) ∧
      (checkServer 10 5 probeUp s).lastHealthCheckAt = 10) ∧
    (∀ s : Server, staleB 10 5 s = false → checkServer 10 5 probeUp s = s) ∧
    (healthCheckPhase 12 5 probeUp
        ((Choose 10 5 probeUp (fun _ => 0) (Discovery.mk exW2)).2.servers)).2
      = (((Discovery.mk exW2).servers.filter (fun s => !staleB 10 5 s)).filter
          (staleB 12 5)).map (fun s => (s.Target, s.Port)) ∧
    defaultHealthCheckerTTL = 5 * 1000000000 :=
  choose_health_check_ttl 10 12 5 probeUp probeUp (fun _ => 0)
    (Discovery.mk exW2) (by decide)

/-- C8: Choose hands the balancer the (health-updated) snapshot of the server
set; if the balancer returns an index n with 0 <= n < length, Choose
increments exactly that server's Used counter by one (all other entries are
untouched) and returns that server's target and port; for any other returned
value — negative or past the end — Choose returns the empty target and port 0
and leaves every Used counter unchanged; being a total function it never
errors. -/
theorem choose_postcondition (now ttl : Int)
    (probe : String → Nat → Bool × Bool) (bal : List Server → Int)
    (d : Discovery) :
    (∀ n : Nat,
      bal ((healthCheckPhase now ttl probe d.servers).1) = (n : Int) →
      n < ((healthCheckPhase now ttl probe d.servers).1).length →
      Choose now ttl probe bal d =
        (((((healthCheckPhase now ttl probe d.servers).1).getD n
            zeroServer).Target,
          (((healthCheckPhase now ttl probe d.servers).1).getD n
            zeroServer).Port),
         ⟨incUsed ((healthCheckPhase now ttl probe d.servers).1) n⟩) ∧
      ((incUsed ((healthCheckPhase now ttl probe d.servers).1) n).getD n
          zeroServer).Used
        = (((healthCheckPhase now ttl probe d.servers).1).getD n
            zeroServer).Used + 1 ∧
      (∀ m : Nat, m ≠ n →
        (incUsed ((healthCheckPhase now ttl probe d.servers).1) n).getD m
            zeroServer
          = ((healthCheckPhase now ttl probe d.servers).1).getD m zeroServer)) ∧
    ((bal ((healthCheckPhase now ttl probe d.servers).1) < 0 ∨
      (((healthCheckPhase now ttl probe d.servers).1).length : Int)
        ≤ bal ((healthCheckPhase now ttl probe d.servers).1)) →
      Choose now ttl probe bal d =
        (("", 0), ⟨(healthCheckPhase now ttl probe d.servers).1⟩)) := by
  constructor
  · intro n hbal hlt
    have hc : 0 ≤ bal ((healthCheckPhase now ttl probe d.servers).1) ∧
        bal ((healthCheckPhase now ttl probe d.servers).1) <
          (((healthCheckPhase now ttl probe d.servers).1).length : Int) := by
      rw [hbal]
      exact ⟨by omega, by exact_mod_cast hlt⟩
    refine ⟨?_, ?_, ?_⟩
    · simp only [Choose]
      rw [if_pos hc, hbal]
      simp
    · rw [getD_incUsed_self _ n hlt]
    · intro m hm
      exact getD_incUsed_ne _ n m hm
  · intro hout
    have hc : ¬(0 ≤ bal ((healthCheckPhase now ttl probe d.servers).1) ∧
        bal ((healthCheckPhase now ttl probe d.servers).1) <
          (((healthCheckPhase now ttl probe d.servers).1).length : Int)) := by
      rcases hout with h | h
      · intro hcon; omega
      · intro hcon; omega
    simp only [Choose]
    rw [if_neg hc]

/-- C8 witness: the postcondition theorem instantiated on a concrete state
with a balancer that returns index 0. -/
theorem choose_postcondition_witness :
    Choose 10 5 probeUp (fun _ => 0) (Discovery.mk exW2) =
      (((((healthCheckPhase 10 5 probeUp (Discovery.mk exW2).servers).1).getD 0
          zeroServer).Target,
        (((healthCheckPhase 10 5 probeUp (Discovery.mk exW2).servers).1).getD 0
          zeroServer).Port),
       ⟨incUsed ((healthCheckPhase 10 5 probeUp (Discovery.mk exW2).servers).1) 0⟩) ∧
    ((incUsed ((healthCheckPhase 10 5 probeUp (Discovery.mk exW2).servers).1)
        0).getD 0 zeroServer).Used
      = (((healthCheckPhase 10 5 probeUp (Discovery.mk exW2).servers).1).getD 0
          zeroServer).Used + 1 ∧
    (∀ m : Nat, m ≠ 0 →
      (incUsed ((healthCheckPhase 10 5 probeUp (Discovery.mk exW2).servers).1)
          0).getD m zeroServer
        = ((healthCheckPhase 10 5 probeUp (Discovery.mk exW2).servers).1).getD m
            zeroServer) :=
  (choose_postcondition 10 5 probeUp (fun _ => 0) (Discovery.mk exW2)).1 0
    (by decide) (by decide)
